import Mathlib

/-!
Verification development for the index converter script
(`src/indexconverter.py`, Python 3 branch).

The script reads CSV rows, sorts them by the key
`(row[0].casefold(), row[1], row[2], row[3].casefold())`, refuses to run when
the target output file already exists, and assembles a document: an initial
heading "#", a new document section with heading like "Aa" whenever a row's
lowercased leading topic character strictly exceeds the current-letter cursor
(initialized to the backtick character, code point 96), one paragraph of three
runs per row, and a footer built from literal text and PAGE/NUMPAGES fields.

Strings are compared as Python compares them: lexicographically by code point.
Python's `str.casefold` (sorting, line 137) and `str.lower` (grouping,
line 192) are both modelled by per-character `Char.toLower`. Within ASCII this
is exact: there full Unicode case-folding and lowercasing are the same
per-character A-Z map. Outside ASCII the two Python functions differ from the
model and from each other (casefold maps the sharp s, code point 223, to
"ss"; lower keeps it), so the one theorem whose truth depends on the fold
interacting with the cursor comparison — the per-letter sectioning theorem —
carries an explicit all-fields-ASCII hypothesis, while the sorter theorems
are generic in the key and the remaining assembly theorems depend only on
comparisons that agree with Python on every character.
-/

namespace IndexConverter

/-- A CSV row as produced by Python's `csv.reader`: a list of string fields.
The script assumes four fields but the reader may yield any number. -/
abbrev Row := List String

/-- The observable failure modes of `main`: an uncaught `IndexError` from
out-of-range indexing (`row[i]` on a short row, `row[0][0]` on an empty
topic), and the `parser.error` exit taken when the output file exists. -/
inductive PyErr where
  | indexError
  | alreadyExists
deriving DecidableEq, Repr

/-- `row[0]`: the topic field. -/
def topic (r : Row) : String := r.getD 0 ""

/-- `row[1]`: the book-number field (text, never parsed as a number). -/
def bookNumber (r : Row) : String := r.getD 1 ""

/-- `row[2]`: the page-number field (text, never parsed as a number). -/
def pageNumber (r : Row) : String := r.getD 2 ""

/-- `row[3]`: the comment field. -/
def comment (r : Row) : String := r.getD 3 ""

/-- Model of Python's `str.casefold` (and, on ASCII, `str.lower`):
per-character lowercasing, yielding the code-point sequence compared by the
sort. -/
def casefold (s : String) : List Char := s.data.map Char.toLower

/-- The sort key from `main`:
`(row[0].casefold(), row[1], row[2], row[3].casefold())`, each component as
its code-point sequence. -/
def sortKey (r : Row) : List Char × List Char × List Char × List Char :=
  (casefold (topic r), (bookNumber r).data, (pageNumber r).data,
    casefold (comment r))

/-- Python's lexicographic string comparison, on code-point sequences. -/
def lexCmp : List Char → List Char → Ordering
  | [], [] => .eq
  | [], _ :: _ => .lt
  | _ :: _, [] => .gt
  | a :: as, b :: bs =>
      if a < b then .lt else if b < a then .gt else lexCmp as bs

/-- Python's tuple comparison: compare first components, break ties with the
second. -/
def pairCmp (f : α → α → Ordering) (g : β → β → Ordering) (x y : α × β) :
    Ordering :=
  (f x.1 y.1).then (g x.2 y.2)

/-- Python's comparison on the 4-tuple sort keys. -/
def keyCmp (x y : List Char × List Char × List Char × List Char) : Ordering :=
  pairCmp lexCmp (pairCmp lexCmp (pairCmp lexCmp lexCmp)) x y

/-- The boolean "row `a` sorts no later than row `b`" relation used by
`sorted(csvin, key=...)`. -/
def keyLe (a b : Row) : Bool := (keyCmp (sortKey a) (sortKey b)).isLE

/-- `sorted(csvin, key=...)`: Python's sort is a stable sort by the key, which
`List.mergeSort` implements. -/
def pySorted (rows : List Row) : List Row := rows.mergeSort keyLe

/-- The laws a comparison function needs for Python's `sorted` semantics:
`eq` characterizes equality, swapping arguments swaps the ordering, and
strict-below is transitive. -/
structure LawfulCmp (f : α → α → Ordering) : Prop where
  eq_iff : ∀ a b, f a b = .eq ↔ a = b
  swap : ∀ a b, f b a = (f a b).swap
  lt_trans : ∀ a b c, f a b = .lt → f b c = .lt → f a c = .lt

/-- The backtick character (code point 96), initial value of the
current-letter cursor `currltr` in `main`. -/
def backtick : Char := Char.ofNat 96

/-- One styled run of a body paragraph: its text, bold and italic flags, and
an optional RGB font color. -/
structure Run where
  text : String
  bold : Bool
  italic : Bool
  color : Option (Nat × Nat × Nat)
deriving DecidableEq, Repr

/-- The three runs `main` appends for one row: the topic in bold colored
RGB(22, 103, 255), the bracketed location marker in italic, and the comment
with default styling. -/
def emitRow (r : Row) : List Run :=
  [⟨topic r, true, false, some (22, 103, 255)⟩,
   ⟨" [b" ++ bookNumber r ++ "/p" ++ pageNumber r ++ "] ", false, true, none⟩,
   ⟨comment r, false, false, none⟩]

/-- A letter group created by `document.add_section` plus its heading:
the lowercased letter stored in `currltr`, the heading text
(`row[0][0].upper() + row[0][0].lower()`), and the entries emitted under
it. -/
structure Group where
  ltr : Char
  heading : String
  entries : List (List Run)
deriving DecidableEq, Repr

/-- The heading text built from the row's leading character:
upper-case then lower-case, e.g. "Aa". -/
def mkHeading (c : Char) : String := ⟨[c.toUpper, c.toLower]⟩

/-- The row loop of `main`, parameterized by the current-letter cursor.
Returns the entries emitted under the current heading together with the
letter groups opened afterwards; fails with `indexError` when `row[0][0]`
indexes an empty topic. -/
def asmLoop (cur : Char) :
    List Row → Except PyErr (List (List Run) × List Group)
  | [] => .ok ([], [])
  | r :: rs =>
    match (topic r).data with
    | [] => .error .indexError
    | c :: _ =>
      if cur < c.toLower then
        match asmLoop c.toLower rs with
        | .error e => .error e
        | .ok (es, gs) =>
            .ok ([], ⟨c.toLower, mkHeading c, emitRow r :: es⟩ :: gs)
      else
        match asmLoop cur rs with
        | .error e => .error e
        | .ok (es, gs) => .ok (emitRow r :: es, gs)

/-- The XML elements `add_page_numbers` appends inside footer runs. -/
inductive XmlElem where
  | textEl (s : String)
  | fldCharBegin
  | instrText (s : String)
  | fldCharEnd
deriving DecidableEq, Repr

/-- `add_page_numbers`: the four runs appended to the footer paragraph, in
order: literal "Page ", a PAGE field (begin/instruction/end), literal
" of ", and a NUMPAGES field (begin/instruction/end). -/
def addPageNumbersRuns : List (List XmlElem) :=
  [[.textEl "Page "],
   [.fldCharBegin, .instrText "PAGE", .fldCharEnd],
   [.textEl " of "],
   [.fldCharBegin, .instrText "NUMPAGES", .fldCharEnd]]

/-- The produced document: the footer runs, the entries under the initial
"#" heading, and the letter groups in order of creation. -/
structure Doc where
  footer : List (List XmlElem)
  initialEntries : List (List Run)
  groups : List Group
deriving DecidableEq, Repr

/-- The whole of `main` as observed on its inputs: the rows read from the
CSV file and whether the output file already exists. Order matters and
follows the source: `sorted()` evaluates the key for every row first, so a
row with fewer than 4 fields raises `IndexError` before the output-file
existence check; the existence check then aborts before any assembly; the
document value is produced only when every step succeeds (`document.save`
is the last statement), so an error means nothing is persisted. -/
def runPipeline (rows : List Row) (outputExists : Bool) : Except PyErr Doc :=
  if rows.all (fun r => 4 ≤ r.length) then
    if outputExists then .error .alreadyExists
    else
      match asmLoop backtick (pySorted rows) with
      | .error e => .error e
      | .ok (es, gs) => .ok ⟨addPageNumbersRuns, es, gs⟩
  else .error .indexError

/-- The lowercased leading character of a row's topic
(`row[0][0].lower()`); meaningful when the topic is nonempty. -/
def leadLower (r : Row) : Char := ((topic r).data.headD (Char.ofNat 0)).toLower

/-- The cursor/new-heading skeleton of the assembly loop, on the lowercased
leading characters alone: the letters for which a section is opened. -/
def headingsFrom (cur : Char) : List Char → List Char
  | [] => []
  | c :: cs => if cur < c then c :: headingsFrom c cs else headingsFrom cur cs

/-- The number of letter-group sections the assembler opens for the given
(already sorted) rows, when assembly succeeds. -/
def sectionCount (rows : List Row) : Option Nat :=
  match asmLoop backtick rows with
  | .error _ => none
  | .ok (_, gs) => some gs.length

/-- The number of distinct lowercased leading topic characters of the rows. -/
def distinctLeadCount (rows : List Row) : Nat :=
  (rows.map leadLower).dedup.length

theorem lexCmp_eq_iff : ∀ a b : List Char, lexCmp a b = .eq ↔ a = b := by
  intro a
  induction a with
  | nil => intro b; cases b <;> simp [lexCmp]
  | cons x xs ih =>
    intro b
    cases b with
    | nil => simp [lexCmp]
    | cons y ys =>
      by_cases hxy : x < y
      · simp [lexCmp, hxy]
        intro h; exact absurd h (ne_of_lt hxy)
      · by_cases hyx : y < x
        · simp [lexCmp, hxy, hyx]
          intro h; exact absurd h (ne_of_gt hyx)
        · have hx : x = y := le_antisymm (not_lt.mp hyx) (not_lt.mp hxy)
          simp [lexCmp, hxy, hyx, hx, ih ys]

theorem lexCmp_swap : ∀ a b : List Char, lexCmp b a = (lexCmp a b).swap := by
  intro a
  induction a with
  | nil => intro b; cases b <;> simp [lexCmp, Ordering.swap]
  | cons x xs ih =>
    intro b
    cases b with
    | nil => simp [lexCmp, Ordering.swap]
    | cons y ys =>
      by_cases hxy : x < y
      · simp [lexCmp, hxy, asymm hxy, Ordering.swap]
      · by_cases hyx : y < x
        · simp [lexCmp, hxy, hyx, Ordering.swap]
        · simp [lexCmp, hxy, hyx, ih ys]

theorem lexCmp_lt_trans :
    ∀ a b c : List Char, lexCmp a b = .lt → lexCmp b c = .lt →
      lexCmp a c = .lt := by
  intro a
  induction a with
  | nil =>
    intro b c hab hbc
    cases b with
    | nil => simp [lexCmp] at hab
    | cons y ys =>
      cases c with
      | nil => simp [lexCmp] at hbc
      | cons z zs => simp [lexCmp]
  | cons x xs ih =>
    intro b c hab hbc
    cases b with
    | nil => simp [lexCmp] at hab
    | cons y ys =>
      cases c with
      | nil => simp [lexCmp] at hbc
      | cons z zs =>
        simp only [lexCmp] at hab hbc ⊢
        by_cases hxy : x < y
        · by_cases hyz : y < z
          · simp [lt_trans hxy hyz]
          · by_cases hzy : z < y
            · simp [hyz, hzy] at hbc
            · have hyz' : y = z := le_antisymm (not_lt.mp hzy) (not_lt.mp hyz)
              simp [hyz' ▸ hxy]
        · by_cases hyx : y < x
          · simp [hxy, hyx] at hab
          · have hxy' : x = y := le_antisymm (not_lt.mp hyx) (not_lt.mp hxy)
            simp [hxy, hyx] at hab
            subst hxy'
            by_cases hxz : x < z
            · simp [hxz]
            · by_cases hzx : z < x
              · simp [hxz, hzx] at hbc
              · simp [hxz, hzx] at hbc ⊢
                exact ih ys zs hab hbc

theorem lexCmp_lawful : LawfulCmp lexCmp :=
  ⟨lexCmp_eq_iff, lexCmp_swap, lexCmp_lt_trans⟩

theorem pairCmp_lawful {f : α → α → Ordering} {g : β → β → Ordering}
    (hf : LawfulCmp f) (hg : LawfulCmp g) : LawfulCmp (pairCmp f g) := by
  constructor
  · intro a b
    unfold pairCmp
    constructor
    · intro h
      have h1 : f a.1 b.1 = .eq := by
        cases hfa : f a.1 b.1 <;> simp [hfa, Ordering.then] at h ⊢
      have h2 : g a.2 b.2 = .eq := by
        rw [h1] at h; simpa [Ordering.then] using h
      have e1 := (hf.eq_iff _ _).mp h1
      have e2 := (hg.eq_iff _ _).mp h2
      exact Prod.ext e1 e2
    · intro h
      subst h
      rw [(hf.eq_iff a.1 a.1).mpr rfl, (hg.eq_iff a.2 a.2).mpr rfl]
      rfl
  · intro a b
    unfold pairCmp
    rw [hf.swap, hg.swap, Ordering.swap_then]
  · intro a b c hab hbc
    unfold pairCmp at hab hbc ⊢
    cases hfa : f a.1 b.1 with
    | gt => simp [hfa, Ordering.then] at hab
    | lt =>
      cases hfb : f b.1 c.1 with
      | gt => simp [hfb, Ordering.then] at hbc
      | lt => simp [hf.lt_trans _ _ _ hfa hfb, Ordering.then]
      | eq =>
        have e := (hf.eq_iff _ _).mp hfb
        rw [← e, hfa]
        rfl
    | eq =>
      have e := (hf.eq_iff _ _).mp hfa
      simp only [hfa, Ordering.then] at hab
      cases hfb : f b.1 c.1 with
      | gt => simp [hfb, Ordering.then] at hbc
      | lt => rw [e, hfb]; rfl
      | eq =>
        simp only [hfb, Ordering.then] at hbc
        rw [e, hfb]
        simpa [Ordering.then] using hg.lt_trans _ _ _ hab hbc

theorem keyCmp_lawful : LawfulCmp keyCmp :=
  pairCmp_lawful lexCmp_lawful
    (pairCmp_lawful lexCmp_lawful (pairCmp_lawful lexCmp_lawful lexCmp_lawful))

theorem LawfulCmp.isLE_total {f : α → α → Ordering} (h : LawfulCmp f)
    (a b : α) : ((f a b).isLE || (f b a).isLE) = true := by
  rw [h.swap a b]
  cases f a b <;> rfl

theorem LawfulCmp.isLE_trans {f : α → α → Ordering} (h : LawfulCmp f)
    {a b c : α} (hab : (f a b).isLE = true) (hbc : (f b c).isLE = true) :
    (f a c).isLE = true := by
  cases hfa : f a b with
  | gt => rw [hfa] at hab; simp [Ordering.isLE] at hab
  | eq => rw [(h.eq_iff _ _).mp hfa]; exact hbc
  | lt =>
    cases hfb : f b c with
    | gt => rw [hfb] at hbc; simp [Ordering.isLE] at hbc
    | eq => rw [← (h.eq_iff _ _).mp hfb]; rw [hfa]; rfl
    | lt => rw [h.lt_trans _ _ _ hfa hfb]; rfl

theorem keyLe_total (a b : Row) : (keyLe a b || keyLe b a) = true :=
  keyCmp_lawful.isLE_total (sortKey a) (sortKey b)

theorem keyLe_trans (a b c : Row) (hab : keyLe a b = true)
    (hbc : keyLe b c = true) : keyLe a c = true :=
  keyCmp_lawful.isLE_trans hab hbc

/-- If two rows have equal sort keys then each sorts no later than the
other. -/
theorem keyLe_of_sortKey_eq {a b : Row} (h : sortKey a = sortKey b) :
    keyLe a b = true := by
  unfold keyLe
  rw [h, (keyCmp_lawful.eq_iff _ _).mpr rfl]
  rfl

/-- Evaluation of `List.mergeSort` on a two-element list. -/
theorem mergeSort_pair {α : Type} (a b : α) (le : α → α → Bool) :
    [a, b].mergeSort le = if le a b then [a, b] else [b, a] := by
  rw [List.mergeSort]
  simp [List.splitInTwo, List.merge]

/-- C1: for every input sequence of rows, the Row Sorter's output is ordered
ascending by the SortKey (casefold topic, bookNumber, pageNumber, casefold
comment), the number fields compared lexically as text, not numerically:
concretely, the row with page "10" sorts strictly before the row with page
"9" when the folded topics and the book fields agree. -/
theorem sorter_output_sorted_by_sortKey :
    (∀ rows : List Row,
      (pySorted rows).Pairwise (fun a b => keyLe a b = true)) ∧
    keyLe ["apple", "2", "10", "x"] ["Apple", "2", "9", "y"] = true ∧
    keyLe ["Apple", "2", "9", "y"] ["apple", "2", "10", "x"] = false :=
  ⟨fun rows => List.sorted_mergeSort keyLe_trans keyLe_total rows,
   by decide, by decide⟩

/-- C5: stability: for every input and every sort-key value, the rows whose
SortKey equals that value appear in the sorted output in exactly their input
order. -/
theorem sort_stable (rows : List Row)
    (k : List Char × List Char × List Char × List Char) :
    (pySorted rows).filter (fun r => decide (sortKey r = k)) =
      rows.filter (fun r => decide (sortKey r = k)) := by
  set p : Row → Bool := fun r => decide (sortKey r = k) with hp
  have hpw : (rows.filter p).Pairwise (fun a b => keyLe a b = true) := by
    apply List.pairwise_of_forall_mem_list
    intro a ha b hb
    have hak : sortKey a = k := by
      have := (List.mem_filter.mp ha).2
      simpa [hp] using this
    have hbk : sortKey b = k := by
      have := (List.mem_filter.mp hb).2
      simpa [hp] using this
    exact keyLe_of_sortKey_eq (hak.trans hbk.symm)
  have hsub : (rows.filter p).Sublist (pySorted rows) :=
    List.sublist_mergeSort keyLe_trans keyLe_total hpw
      (List.filter_sublist rows)
  have hself : (rows.filter p).filter p = rows.filter p := by
    rw [List.filter_eq_self]
    intro a ha
    exact (List.mem_filter.mp ha).2
  have hsub2 : (rows.filter p).Sublist ((pySorted rows).filter p) := by
    have h2 := List.Sublist.filter p hsub
    rwa [hself] at h2
  have hlen : ((pySorted rows).filter p).length = (rows.filter p).length :=
    ((List.mergeSort_perm rows keyLe).filter p).length_eq
  exact (hsub2.eq_of_length hlen.symm).symm

/-- C8: sorting is idempotent: an already-sorted sequence (in particular the
sorter's own output) is returned unchanged. -/
theorem sort_idempotent :
    (∀ rows : List Row, rows.Pairwise (fun a b => keyLe a b = true) →
      pySorted rows = rows) ∧
    (∀ rows : List Row, pySorted (pySorted rows) = pySorted rows) :=
  ⟨fun _ h => List.mergeSort_of_sorted h,
   fun rows => List.mergeSort_of_sorted
     (List.sorted_mergeSort keyLe_trans keyLe_total rows)⟩

/-- Witness for C8 at a concrete already-sorted two-row input. -/
theorem sort_idempotent_witness :
    [["apple", "2", "10", "x"], ["Apple", "2", "9", "y"]].Pairwise
        (fun a b => keyLe a b = true) ∧
    pySorted [["apple", "2", "10", "x"], ["Apple", "2", "9", "y"]] =
      [["apple", "2", "10", "x"], ["Apple", "2", "9", "y"]] :=
  ⟨by decide, sort_idempotent.1 _ (by decide)⟩

theorem string_data_ne_nil {s : String} (h : s ≠ "") : s.data ≠ [] := by
  intro hd
  apply h
  have h2 : s = ⟨s.data⟩ := rfl
  rw [h2, hd]

theorem topic_data_cons {r : Row} (h : topic r ≠ "") :
    ∃ c cs, (topic r).data = c :: cs := by
  cases hd : (topic r).data with
  | nil => exact absurd hd (string_data_ne_nil h)
  | cons c cs => exact ⟨c, cs, rfl⟩

theorem leadLower_cons {r : Row} {c : Char} {cs : List Char}
    (hd : (topic r).data = c :: cs) : leadLower r = c.toLower := by
  unfold leadLower
  rw [hd]
  rfl

theorem casefold_topic_cons {r : Row} {c : Char} {cs : List Char}
    (hd : (topic r).data = c :: cs) :
    casefold (topic r) = c.toLower :: cs.map Char.toLower := by
  unfold casefold
  rw [hd]
  rfl

theorem lexCmp_head_le {x y : Char} {xs ys : List Char}
    (h : lexCmp (x :: xs) (y :: ys) ≠ Ordering.gt) : x ≤ y := by
  by_cases hyx : y < x
  · exfalso
    apply h
    have hxy : ¬x < y := asymm hyx
    simp [lexCmp, hxy, hyx]
  · exact not_lt.mp hyx

theorem keyLe_topic_ne_gt {a b : Row} (h : keyLe a b = true) :
    lexCmp (casefold (topic a)) (casefold (topic b)) ≠ Ordering.gt := by
  intro hgt
  unfold keyLe keyCmp pairCmp at h
  rw [show (sortKey a).1 = casefold (topic a) from rfl,
    show (sortKey b).1 = casefold (topic b) from rfl, hgt] at h
  exact Bool.noConfusion h

theorem leadLower_le_of_keyLe {a b : Row} (ha : topic a ≠ "")
    (hb : topic b ≠ "") (h : keyLe a b = true) :
    leadLower a ≤ leadLower b := by
  obtain ⟨ca, cas, hda⟩ := topic_data_cons ha
  obtain ⟨cb, cbs, hdb⟩ := topic_data_cons hb
  have hne := keyLe_topic_ne_gt h
  rw [casefold_topic_cons hda, casefold_topic_cons hdb] at hne
  rw [leadLower_cons hda, leadLower_cons hdb]
  exact lexCmp_head_le hne

theorem leads_sorted {rows : List Row} (hne : ∀ r ∈ rows, topic r ≠ "")
    (hs : rows.Pairwise (fun a b => keyLe a b = true)) :
    (rows.map leadLower).Pairwise (· ≤ ·) := by
  rw [List.pairwise_map]
  refine hs.imp_of_mem ?_
  intro a b ha hb hab
  exact leadLower_le_of_keyLe (hne a ha) (hne b hb) hab

theorem asmLoop_cons_of_empty {r : Row} (hd : (topic r).data = [])
    (cur : Char) (rs : List Row) :
    asmLoop cur (r :: rs) = .error .indexError := by
  conv_lhs => rw [asmLoop]
  rw [hd]

theorem asmLoop_cons_of_data {r : Row} {c : Char} {cs : List Char}
    (hd : (topic r).data = c :: cs) (cur : Char) (rs : List Row) :
    asmLoop cur (r :: rs) =
      if cur < c.toLower then
        match asmLoop c.toLower rs with
        | .error e => .error e
        | .ok (es, gs) =>
            .ok ([], ⟨c.toLower, mkHeading c, emitRow r :: es⟩ :: gs)
      else
        match asmLoop cur rs with
        | .error e => .error e
        | .ok (es, gs) => .ok (emitRow r :: es, gs) := by
  conv_lhs => rw [asmLoop]
  rw [hd]

theorem asmLoop_ok : ∀ (rows : List Row) (cur : Char),
    (∀ r ∈ rows, topic r ≠ "") →
    ∃ es gs, asmLoop cur rows = .ok (es, gs) := by
  intro rows
  induction rows with
  | nil => exact fun cur _ => ⟨[], [], rfl⟩
  | cons r rs ih =>
    intro cur h
    obtain ⟨c, cs, hd⟩ := topic_data_cons (h r (List.mem_cons_self r rs))
    have hrs : ∀ x ∈ rs, topic x ≠ "" := fun x hx =>
      h x (List.mem_cons_of_mem r hx)
    by_cases hc : cur < c.toLower
    · obtain ⟨es, gs, hrec⟩ := ih c.toLower hrs
      refine ⟨[], ⟨c.toLower, mkHeading c, emitRow r :: es⟩ :: gs, ?_⟩
      rw [asmLoop_cons_of_data hd, if_pos hc, hrec]
    · obtain ⟨es, gs, hrec⟩ := ih cur hrs
      refine ⟨emitRow r :: es, gs, ?_⟩
      rw [asmLoop_cons_of_data hd, if_neg hc, hrec]

theorem asmLoop_error_of_empty_topic : ∀ (rows : List Row) (cur : Char),
    (∃ r ∈ rows, topic r = "") →
    asmLoop cur rows = .error .indexError := by
  intro rows
  induction rows with
  | nil => rintro cur ⟨r, hr, _⟩; cases hr
  | cons r rs ih =>
    rintro cur ⟨x, hx, hxe⟩
    rcases List.mem_cons.mp hx with rfl | hx'
    · have hd : (topic x).data = [] := by rw [hxe]
      exact asmLoop_cons_of_empty hd cur rs
    · cases hd : (topic r).data with
      | nil => exact asmLoop_cons_of_empty hd cur rs
      | cons c cs =>
        rw [asmLoop_cons_of_data hd]
        by_cases hc : cur < c.toLower
        · rw [if_pos hc, ih c.toLower ⟨x, hx', hxe⟩]
        · rw [if_neg hc, ih cur ⟨x, hx', hxe⟩]

theorem asmLoop_initial_entries : ∀ (rows : List Row) (cur : Char)
    (es : List (List Run)) (gs : List Group),
    asmLoop cur rows = .ok (es, gs) →
    es = (rows.takeWhile (fun r => decide (leadLower r ≤ cur))).map emitRow := by
  intro rows
  induction rows with
  | nil =>
    intro cur es gs h
    simp only [asmLoop] at h
    cases h
    rfl
  | cons r rs ih =>
    intro cur es gs h
    cases hd : (topic r).data with
    | nil => rw [asmLoop_cons_of_empty hd] at h; cases h
    | cons c cs =>
      rw [asmLoop_cons_of_data hd] at h
      have hlead : leadLower r = c.toLower := leadLower_cons hd
      by_cases hc : cur < c.toLower
      · rw [if_pos hc] at h
        cases hrec : asmLoop c.toLower rs with
        | error e => rw [hrec] at h; cases h
        | ok p =>
          obtain ⟨es', gs'⟩ := p
          rw [hrec] at h
          cases h
          have hp : (decide (leadLower r ≤ cur)) = false := by
            simp [hlead]
            exact hc
          rw [List.takeWhile_cons, hp]
          rfl
      · rw [if_neg hc] at h
        cases hrec : asmLoop cur rs with
        | error e => rw [hrec] at h; cases h
        | ok p =>
          obtain ⟨es', gs'⟩ := p
          rw [hrec] at h
          cases h
          have hp : (decide (leadLower r ≤ cur)) = true := by
            simp [hlead]
            exact not_lt.mp hc
          rw [List.takeWhile_cons, hp]
          simp only [if_true, List.map_cons]
          rw [ih cur _ _ hrec]

theorem asmLoop_groups_gt : ∀ (rows : List Row) (cur : Char)
    (es : List (List Run)) (gs : List Group),
    asmLoop cur rows = .ok (es, gs) →
    (∀ g ∈ gs, cur < g.ltr) ∧ (gs.map Group.ltr).Chain' (· < ·) := by
  intro rows
  induction rows with
  | nil =>
    intro cur es gs h
    simp only [asmLoop] at h
    cases h
    exact ⟨by simp, by simp⟩
  | cons r rs ih =>
    intro cur es gs h
    cases hd : (topic r).data with
    | nil => rw [asmLoop_cons_of_empty hd] at h; cases h
    | cons c cs =>
      rw [asmLoop_cons_of_data hd] at h
      by_cases hc : cur < c.toLower
      · rw [if_pos hc] at h
        cases hrec : asmLoop c.toLower rs with
        | error e => rw [hrec] at h; cases h
        | ok p =>
          obtain ⟨es', gs'⟩ := p
          rw [hrec] at h
          cases h
          obtain ⟨h1, h2⟩ := ih c.toLower es' gs' hrec
          constructor
          · intro g hg
            rcases List.mem_cons.mp hg with rfl | hg'
            · exact hc
            · exact lt_trans hc (h1 g hg')
          · rw [List.map_cons, List.chain'_cons']
            refine ⟨?_, h2⟩
            intro b hb
            cases gs' with
            | nil => simp at hb
            | cons g gtl =>
              simp only [List.map_cons, List.head?_cons, Option.mem_def,
                Option.some.injEq] at hb
              rw [← hb]
              exact h1 g (List.mem_cons_self g gtl)
      · rw [if_neg hc] at h
        cases hrec : asmLoop cur rs with
        | error e => rw [hrec] at h; cases h
        | ok p =>
          obtain ⟨es', gs'⟩ := p
          rw [hrec] at h
          cases h
          exact ih cur _ _ hrec

theorem asmLoop_groups_ltrs : ∀ (rows : List Row) (cur : Char)
    (es : List (List Run)) (gs : List Group),
    asmLoop cur rows = .ok (es, gs) →
    gs.map Group.ltr = headingsFrom cur (rows.map leadLower) := by
  intro rows
  induction rows with
  | nil =>
    intro cur es gs h
    simp only [asmLoop] at h
    cases h
    rfl
  | cons r rs ih =>
    intro cur es gs h
    cases hd : (topic r).data with
    | nil => rw [asmLoop_cons_of_empty hd] at h; cases h
    | cons c cs =>
      rw [asmLoop_cons_of_data hd] at h
      have hlead : leadLower r = c.toLower := leadLower_cons hd
      rw [List.map_cons, hlead]
      by_cases hc : cur < c.toLower
      · rw [if_pos hc] at h
        cases hrec : asmLoop c.toLower rs with
        | error e => rw [hrec] at h; cases h
        | ok p =>
          obtain ⟨es', gs'⟩ := p
          rw [hrec] at h
          cases h
          simp only [headingsFrom, if_pos hc, List.map_cons]
          rw [ih c.toLower _ _ hrec]
      · rw [if_neg hc] at h
        cases hrec : asmLoop cur rs with
        | error e => rw [hrec] at h; cases h
        | ok p =>
          obtain ⟨es', gs'⟩ := p
          rw [hrec] at h
          cases h
          simp only [headingsFrom, if_neg hc]
          exact ih cur _ _ hrec

theorem dedup_sorted_cons : ∀ (cs : List Char) (c : Char),
    (c :: cs).Pairwise (· ≤ ·) →
    (c :: cs).dedup = c :: (cs.filter (fun x => decide (c < x))).dedup := by
  intro cs
  induction cs with
  | nil => intro c _; simp
  | cons d ds ih =>
    intro c hp
    have hcd : c ≤ d :=
      (List.pairwise_cons.mp hp).1 d (List.mem_cons_self d ds)
    have hdds : ∀ x ∈ ds, d ≤ x :=
      (List.pairwise_cons.mp (List.pairwise_cons.mp hp).2).1
    by_cases hdc : d = c
    · subst hdc
      have hsub : (d :: ds).Sublist (d :: d :: ds) :=
        List.Sublist.cons₂ d (List.sublist_cons_self d ds)
      have hp2 : (d :: ds).Pairwise (· ≤ ·) := hp.sublist hsub
      rw [List.dedup_cons_of_mem (List.mem_cons_self d ds)]
      rw [List.filter_cons]
      rw [if_neg (fun hh => lt_irrefl d (of_decide_eq_true hh))]
      exact ih d hp2
    · have hcd' : c < d := lt_of_le_of_ne hcd (fun h => hdc h.symm)
      have hnotmem : c ∉ d :: ds := by
        intro hmem
        rcases List.mem_cons.mp hmem with h | h
        · exact hdc h.symm
        · exact absurd (lt_of_lt_of_le hcd' (hdds c h)) (lt_irrefl c)
      rw [List.dedup_cons_of_not_mem hnotmem]
      rw [List.filter_eq_self.mpr ?_]
      intro x hx
      rcases List.mem_cons.mp hx with rfl | h
      · simpa using hcd'
      · simpa using lt_of_lt_of_le hcd' (hdds x h)

theorem headingsFrom_eq_dedup_filter : ∀ (l : List Char) (cur : Char),
    l.Pairwise (· ≤ ·) →
    headingsFrom cur l = (l.filter (fun x => decide (cur < x))).dedup := by
  intro l
  induction l with
  | nil => intro cur _; rfl
  | cons c cs ih =>
    intro cur hp
    have hpcs : cs.Pairwise (· ≤ ·) := (List.pairwise_cons.mp hp).2
    have hall : ∀ x ∈ cs, c ≤ x := (List.pairwise_cons.mp hp).1
    by_cases hc : cur < c
    · simp only [headingsFrom, if_pos hc]
      rw [List.filter_cons]
      rw [if_pos (decide_eq_true hc)]
      have hfull : cs.filter (fun x => decide (cur < x)) = cs :=
        List.filter_eq_self.mpr (fun x hx => by
          simpa using lt_of_lt_of_le hc (hall x hx))
      rw [hfull, dedup_sorted_cons cs c hp, ih c hpcs]
    · simp only [headingsFrom, if_neg hc]
      rw [List.filter_cons]
      rw [if_neg (fun hh => hc (of_decide_eq_true hh))]
      exact ih cur hpcs

theorem sorted_filter_eq_takeWhile {rows : List Row} (cur : Char)
    (hs : (rows.map leadLower).Pairwise (· ≤ ·)) :
    rows.filter (fun r => decide (leadLower r ≤ cur)) =
      rows.takeWhile (fun r => decide (leadLower r ≤ cur)) := by
  induction rows with
  | nil => rfl
  | cons r rs ih =>
    rw [List.map_cons] at hs
    obtain ⟨hall', hpcs⟩ := List.pairwise_cons.mp hs
    have hall : ∀ x ∈ rs, leadLower r ≤ leadLower x := fun x hx =>
      hall' (leadLower x) (List.mem_map_of_mem leadLower hx)
    rw [List.filter_cons, List.takeWhile_cons]
    by_cases hr : leadLower r ≤ cur
    · rw [if_pos (decide_eq_true hr), if_pos (decide_eq_true hr)]
      rw [ih hpcs]
    · rw [if_neg (fun hh => hr (of_decide_eq_true hh)),
        if_neg (fun hh => hr (of_decide_eq_true hh))]
      rw [List.filter_eq_nil_iff.mpr ?_]
      intro x hx
      simp only [decide_eq_true_eq]
      intro hle
      exact hr (le_trans (hall x hx) hle)

/-- C10: on a sorted input with nonempty topics, the assembly loop opens
letter groups only for letters strictly above the backtick cursor start
value, the group letters are strictly increasing in document order (the
cursor never decreases), and every row whose lowercased leading character
is at most the backtick (digits and most punctuation) is emitted under the
initial "#" heading without opening a section of its own. -/
theorem cursor_monotone_sections (rows : List Row)
    (es : List (List Run)) (gs : List Group)
    (hne : ∀ r ∈ rows, topic r ≠ "")
    (hs : rows.Pairwise (fun a b => keyLe a b = true))
    (h : asmLoop backtick rows = .ok (es, gs)) :
    (∀ g ∈ gs, backtick < g.ltr) ∧
    (gs.map Group.ltr).Chain' (· < ·) ∧
    es = (rows.filter (fun r => decide (leadLower r ≤ backtick))).map
      emitRow := by
  obtain ⟨h1, h2⟩ := asmLoop_groups_gt rows backtick es gs h
  refine ⟨h1, h2, ?_⟩
  rw [sorted_filter_eq_takeWhile backtick (leads_sorted hne hs)]
  exact asmLoop_initial_entries rows backtick es gs h

/-- Witness for C10 at a concrete sorted input: the digit-led row stays
under "#", the alphabetic row opens the only section. -/
theorem cursor_monotone_sections_witness :
    ((∀ r ∈ ([["0day", "1", "2", "c"], ["apple", "3", "4", "d"]] : List Row),
        topic r ≠ "") ∧
     ([["0day", "1", "2", "c"], ["apple", "3", "4", "d"]] : List Row).Pairwise
        (fun a b => keyLe a b = true) ∧
     asmLoop backtick [["0day", "1", "2", "c"], ["apple", "3", "4", "d"]] =
        .ok ([emitRow ["0day", "1", "2", "c"]],
          [⟨'a', "Aa", [emitRow ["apple", "3", "4", "d"]]⟩])) ∧
    ((∀ g ∈ [(⟨'a', "Aa", [emitRow ["apple", "3", "4", "d"]]⟩ : Group)],
        backtick < g.ltr) ∧
     (([(⟨'a', "Aa", [emitRow ["apple", "3", "4", "d"]]⟩ : Group)]).map
        Group.ltr).Chain' (· < ·) ∧
     [emitRow ["0day", "1", "2", "c"]] =
       (([["0day", "1", "2", "c"], ["apple", "3", "4", "d"]] : List Row).filter
         (fun r => decide (leadLower r ≤ backtick))).map emitRow) :=
  ⟨⟨by decide, by decide, rfl⟩,
   cursor_monotone_sections [["0day", "1", "2", "c"], ["apple", "3", "4", "d"]]
     [emitRow ["0day", "1", "2", "c"]]
     [⟨'a', "Aa", [emitRow ["apple", "3", "4", "d"]]⟩]
     (by decide) (by decide) rfl⟩

/-- C2 counterexample: a sorted two-row input whose leading characters "0"
and "1" are distinct produces zero letter sections, not one section per
distinct leading case-folded character (which would require two). -/
theorem sections_per_letter_cex :
    ([["0x", "1", "1", "c"], ["1x", "1", "1", "c"]] : List Row).Pairwise
        (fun a b => keyLe a b = true) ∧
    ¬ (sectionCount [["0x", "1", "1", "c"], ["1x", "1", "1", "c"]] =
        some (distinctLeadCount [["0x", "1", "1", "c"], ["1x", "1", "1", "c"]])) ∧
    sectionCount [["0x", "1", "1", "c"], ["1x", "1", "1", "c"]] = some 0 ∧
    distinctLeadCount [["0x", "1", "1", "c"], ["1x", "1", "1", "c"]] = 2 :=
  ⟨by decide, by decide, by decide, by decide⟩

/-- C2 amended: restricted to sorted inputs in the ASCII fragment (every
character of every field below code point 128) whose topics all begin with
a character lowercasing strictly above the backtick (all alphabetic leading
characters in particular), exactly one section is opened per distinct
folded leading character, in order of first appearance: the group letters
are exactly the deduplicated leading letters and the section count equals
the distinct-leading-character count.

The ASCII restriction is essential to the program, not only to the model:
outside ASCII, Python's str.casefold (which orders the rows, line 137) and
str.lower (which drives the section cursor, line 192) come apart — e.g.
casefold maps the sharp s (code point 223) to "ss" while lower keeps it —
so the program can sort a sharp-s topic before a "t" topic yet open no
section for the "t" row (116 < 223 at the cursor test), giving fewer
sections than distinct folded leading characters. Within ASCII both
functions are per-character lowercasing, exactly the model's casefold and
leadLower, so the hypotheses and the conclusion coincide with the
program's behavior. -/
theorem sections_per_letter_amended (rows : List Row)
    (es : List (List Run)) (gs : List Group)
    (hascii : ∀ r ∈ rows, ∀ f ∈ r, ∀ c ∈ f.data, c.toNat < 128)
    (hne : ∀ r ∈ rows, topic r ≠ "")
    (hgt : ∀ r ∈ rows, backtick < leadLower r)
    (hs : rows.Pairwise (fun a b => keyLe a b = true))
    (h : asmLoop backtick rows = .ok (es, gs)) :
    gs.map Group.ltr = (rows.map leadLower).dedup ∧
    sectionCount rows = some (distinctLeadCount rows) := by
  have hsorted := leads_sorted hne hs
  have hl := asmLoop_groups_ltrs rows backtick es gs h
  rw [headingsFrom_eq_dedup_filter _ backtick hsorted] at hl
  have hfull : (rows.map leadLower).filter (fun x => decide (backtick < x)) =
      rows.map leadLower := by
    apply List.filter_eq_self.mpr
    intro x hx
    obtain ⟨r, hr, rfl⟩ := List.mem_map.mp hx
    exact decide_eq_true (hgt r hr)
  rw [hfull] at hl
  refine ⟨hl, ?_⟩
  unfold sectionCount distinctLeadCount
  rw [h, ← hl, List.length_map]

/-- Witness for C2 amended at the six-row input with leading characters
a, a, b, b, b, c: exactly 3 sections. -/
theorem sections_per_letter_amended_witness :
    ((∀ r ∈ ([["a1", "1", "1", "c"], ["a2", "1", "1", "c"],
        ["b1", "1", "1", "c"], ["b2", "1", "1", "c"],
        ["b3", "1", "1", "c"], ["c1", "1", "1", "c"]] : List Row),
        ∀ f ∈ r, ∀ c ∈ f.data, c.toNat < 128) ∧
     (∀ r ∈ ([["a1", "1", "1", "c"], ["a2", "1", "1", "c"],
        ["b1", "1", "1", "c"], ["b2", "1", "1", "c"],
        ["b3", "1", "1", "c"], ["c1", "1", "1", "c"]] : List Row),
        topic r ≠ "") ∧
     (∀ r ∈ ([["a1", "1", "1", "c"], ["a2", "1", "1", "c"],
        ["b1", "1", "1", "c"], ["b2", "1", "1", "c"],
        ["b3", "1", "1", "c"], ["c1", "1", "1", "c"]] : List Row),
        backtick < leadLower r) ∧
     ([["a1", "1", "1", "c"], ["a2", "1", "1", "c"],
        ["b1", "1", "1", "c"], ["b2", "1", "1", "c"],
        ["b3", "1", "1", "c"], ["c1", "1", "1", "c"]] : List Row).Pairwise
        (fun a b => keyLe a b = true) ∧
     asmLoop backtick [["a1", "1", "1", "c"], ["a2", "1", "1", "c"],
        ["b1", "1", "1", "c"], ["b2", "1", "1", "c"],
        ["b3", "1", "1", "c"], ["c1", "1", "1", "c"]] =
       .ok ([],
         [⟨'a', "Aa", [emitRow ["a1", "1", "1", "c"],
            emitRow ["a2", "1", "1", "c"]]⟩,
          ⟨'b', "Bb", [emitRow ["b1", "1", "1", "c"],
            emitRow ["b2", "1", "1", "c"], emitRow ["b3", "1", "1", "c"]]⟩,
          ⟨'c', "Cc", [emitRow ["c1", "1", "1", "c"]]⟩])) ∧
    ([⟨'a', "Aa", [emitRow ["a1", "1", "1", "c"],
        emitRow ["a2", "1", "1", "c"]]⟩,
      ⟨'b', "Bb", [emitRow ["b1", "1", "1", "c"],
        emitRow ["b2", "1", "1", "c"], emitRow ["b3", "1", "1", "c"]]⟩,
      (⟨'c', "Cc", [emitRow ["c1", "1", "1", "c"]]⟩ : Group)].map Group.ltr =
        (([["a1", "1", "1", "c"], ["a2", "1", "1", "c"],
          ["b1", "1", "1", "c"], ["b2", "1", "1", "c"],
          ["b3", "1", "1", "c"], ["c1", "1", "1", "c"]] : List Row).map
            leadLower).dedup ∧
     sectionCount [["a1", "1", "1", "c"], ["a2", "1", "1", "c"],
        ["b1", "1", "1", "c"], ["b2", "1", "1", "c"],
        ["b3", "1", "1", "c"], ["c1", "1", "1", "c"]] =
       some (distinctLeadCount [["a1", "1", "1", "c"], ["a2", "1", "1", "c"],
        ["b1", "1", "1", "c"], ["b2", "1", "1", "c"],
        ["b3", "1", "1", "c"], ["c1", "1", "1", "c"]])) ∧
    distinctLeadCount [["a1", "1", "1", "c"], ["a2", "1", "1", "c"],
        ["b1", "1", "1", "c"], ["b2", "1", "1", "c"],
        ["b3", "1", "1", "c"], ["c1", "1", "1", "c"]] = 3 :=
  ⟨⟨by decide, by decide, by decide, by decide, rfl⟩,
   sections_per_letter_amended _ [] _ (by decide) (by decide) (by decide)
     (by decide) rfl,
   by decide⟩

/-- C9: for well-formed 4-field rows, a row with an empty topic makes the
assembly loop fail with the out-of-range indexing error at row[0][0] (no
document is produced, no named error of the spec is raised), and with every
topic nonempty the run completes: the assembler is total exactly under the
nonempty-topic precondition. -/
theorem empty_topic_crashes (rows : List Row)
    (hlen : ∀ r ∈ rows, 4 ≤ r.length) :
    ((∃ r ∈ rows, topic r = "") →
      runPipeline rows false = .error .indexError) ∧
    ((∀ r ∈ rows, topic r ≠ "") → ∃ d, runPipeline rows false = .ok d) := by
  have hall : rows.all (fun r => 4 ≤ r.length) = true :=
    List.all_eq_true.mpr (fun r hr => decide_eq_true (hlen r hr))
  constructor
  · rintro ⟨r, hr, hre⟩
    unfold runPipeline
    rw [hall, asmLoop_error_of_empty_topic (pySorted rows) backtick
      ⟨r, List.mem_mergeSort.mpr hr, hre⟩]
    rfl
  · intro hne
    obtain ⟨es, gs, hok⟩ := asmLoop_ok (pySorted rows) backtick
      (fun r hr => hne r (List.mem_mergeSort.mp hr))
    refine ⟨⟨addPageNumbersRuns, es, gs⟩, ?_⟩
    unfold runPipeline
    rw [hall, hok]
    rfl

/-- Witness for C9 at a one-row input with an empty topic. -/
theorem empty_topic_crashes_witness :
    (∀ r ∈ ([["", "1", "2", "c"]] : List Row), 4 ≤ r.length) ∧
    (∃ r ∈ ([["", "1", "2", "c"]] : List Row), topic r = "") ∧
    runPipeline [["", "1", "2", "c"]] false = .error .indexError :=
  ⟨by decide, by decide,
   (empty_topic_crashes [["", "1", "2", "c"]] (by decide)).1 (by decide)⟩

/-- C3 counterexample: a row with five fields (not exactly 4) is accepted:
the run completes and produces a document instead of failing with any
error. -/
theorem malformed_row_cex :
    runPipeline [["a", "1", "2", "c", "EXTRA"]] false =
      .ok ⟨addPageNumbersRuns, [],
        [⟨'a', "Aa", [emitRow ["a", "1", "2", "c", "EXTRA"]]⟩]⟩ := by
  have hs : pySorted [["a", "1", "2", "c", "EXTRA"]] =
      [["a", "1", "2", "c", "EXTRA"]] := by
    unfold pySorted
    exact List.mergeSort_singleton _
  unfold runPipeline
  rw [hs]
  rfl

/-- C3 amended: a row with fewer than 4 fields aborts the whole run at key
evaluation inside sorted() with an uncaught IndexError (which names no row
index), before anything is persisted — regardless of the output-file state;
rows with more than 4 fields are not rejected. -/
theorem malformed_row_amended (rows : List Row) (outputExists : Bool)
    (h : ∃ r ∈ rows, r.length < 4) :
    runPipeline rows outputExists = .error .indexError := by
  obtain ⟨r, hr, hlt⟩ := h
  have hcond : ¬(rows.all (fun r => 4 ≤ r.length) = true) := by
    intro hall
    exact not_le.mpr hlt (of_decide_eq_true (List.all_eq_true.mp hall r hr))
  unfold runPipeline
  rw [if_neg hcond]

/-- Witness for C3 amended at a one-field row. -/
theorem malformed_row_amended_witness :
    (∃ r ∈ ([["a"]] : List Row), r.length < 4) ∧
    runPipeline [["a"]] false = .error .indexError :=
  ⟨by decide, malformed_row_amended [["a"]] false (by decide)⟩

/-- C4 counterexample: with the output file present and a short row in the
input, the run reports the row-indexing error, not the existing-output
error: the rows are read and their sort keys evaluated before the
output-existence check, so the abort does not precede all row
processing. -/
theorem existing_output_cex :
    runPipeline [["a"]] true = .error .indexError ∧
    PyErr.indexError ≠ PyErr.alreadyExists :=
  ⟨rfl, by decide⟩

/-- C4 amended: when the target output exists the run never persists a
document, and for well-formed rows it exits with the already-exists error
before any document assembly; the input rows are however read and sorted
before the existence check. -/
theorem existing_output_aborts (rows : List Row) :
    (∀ d : Doc, runPipeline rows true ≠ .ok d) ∧
    ((∀ r ∈ rows, 4 ≤ r.length) →
      runPipeline rows true = .error .alreadyExists) := by
  constructor
  · intro d hd
    unfold runPipeline at hd
    by_cases hall : rows.all (fun r => 4 ≤ r.length) = true
    · rw [if_pos hall] at hd
      exact Except.noConfusion hd
    · rw [if_neg hall] at hd
      exact Except.noConfusion hd
  · intro h
    have hall : rows.all (fun r => 4 ≤ r.length) = true :=
      List.all_eq_true.mpr (fun r hr => decide_eq_true (h r hr))
    unfold runPipeline
    rw [if_pos hall]
    rfl

/-- Witness for C4 amended at a concrete well-formed input. -/
theorem existing_output_aborts_witness :
    (∀ r ∈ ([["a", "1", "2", "c"]] : List Row), 4 ≤ r.length) ∧
    runPipeline [["a", "1", "2", "c"]] true = .error .alreadyExists :=
  ⟨by decide, (existing_output_aborts [["a", "1", "2", "c"]]).2 (by decide)⟩

/-- C6: the concrete round trip: the two rows sort case-insensitively to
apple before Zebra and assemble into exactly two letter sections "Aa" then
"Zz", each with one three-run entry — topic bold and colored, bracketed
location italic, comment default — whose texts concatenate to
"apple [b3/p2] desc2" and "Zebra [b1/p5] desc1". -/
theorem roundtrip_concrete :
    runPipeline [["Zebra", "1", "5", "desc1"], ["apple", "3", "2", "desc2"]]
        false =
      .ok ⟨addPageNumbersRuns, [],
        [⟨'a', "Aa", [[⟨"apple", true, false, some (22, 103, 255)⟩,
          ⟨" [b3/p2] ", false, true, none⟩,
          ⟨"desc2", false, false, none⟩]]⟩,
         ⟨'z', "Zz", [[⟨"Zebra", true, false, some (22, 103, 255)⟩,
          ⟨" [b1/p5] ", false, true, none⟩,
          ⟨"desc1", false, false, none⟩]]⟩]⟩ ∧
    "apple" ++ " [b3/p2] " ++ "desc2" = "apple [b3/p2] desc2" ∧
    "Zebra" ++ " [b1/p5] " ++ "desc1" = "Zebra [b1/p5] desc1" := by
  refine ⟨?_, rfl, rfl⟩
  have hs : pySorted
      [["Zebra", "1", "5", "desc1"], ["apple", "3", "2", "desc2"]] =
      [["apple", "3", "2", "desc2"], ["Zebra", "1", "5", "desc1"]] := by
    unfold pySorted
    rw [mergeSort_pair]
    rfl
  unfold runPipeline
  rw [hs]
  rfl

/-- C7 counterexample: no decomposition of the footer run sequence ends in
a trailing literal-text run: the sequence ends with the NUMPAGES field. -/
theorem footer_trailing_literal_cex :
    ¬ ∃ (pre : List (List XmlElem)) (t : String),
        addPageNumbersRuns = pre ++ [[XmlElem.textEl t]] := by
  rintro ⟨pre, t, h⟩
  have h2 := congrArg List.getLast? h
  rw [List.getLast?_concat] at h2
  rw [show addPageNumbersRuns.getLast? =
    some [XmlElem.fldCharBegin, XmlElem.instrText "NUMPAGES",
      XmlElem.fldCharEnd] from rfl] at h2
  simp at h2

/-- C7 amended: the footer paragraph receives exactly the composite run
sequence literal "Page ", a dynamically computed current-page field, the
literal " of ", and a dynamically computed total-page-count field — both
expressed through the format's native field mechanism (fldChar begin,
instruction text PAGE or NUMPAGES, fldChar end), never as pre-computed
literal numbers, and with no trailing literal text — so every literal text
run in the footer is one of the two connectives. -/
theorem footer_runs_spec :
    addPageNumbersRuns =
      [[XmlElem.textEl "Page "],
       [XmlElem.fldCharBegin, XmlElem.instrText "PAGE", XmlElem.fldCharEnd],
       [XmlElem.textEl " of "],
       [XmlElem.fldCharBegin, XmlElem.instrText "NUMPAGES",
         XmlElem.fldCharEnd]] ∧
    (∀ run ∈ addPageNumbersRuns, ∀ s : String,
      XmlElem.textEl s ∈ run → s = "Page " ∨ s = " of ") :=
  ⟨rfl, by
    intro run hrun s hs
    simp only [addPageNumbersRuns] at hrun
    fin_cases hrun <;> simp_all⟩

end IndexConverter
